import Mathlib

/-!
# Verification of the Blade `Amount` formatting logic

Shallow embedding of `src/packages/blade/src/components/Amount/Amount.tsx`.
JavaScript numbers are idealised as rationals (`ℚ`); `Math.floor` is `Int.floor`,
`Number.prototype.toFixed` is rounding to the nearest multiple of `10 ^ -d` with
ties toward the larger result (ECMA-262), and `Number.prototype.toLocaleString`
with `minimumFractionDigits = d` is modelled per ECMA-402: locale `en-IN` for the
INR currency and `en-US` otherwise, `maximumFractionDigits = max d 3`, rounding
mode half-expand, digit grouping by locale.
-/

namespace Blade

/-- Model of `Number(x.toFixed(d))` (ECMA-262 `toFixed`): the nearest multiple
of `10 ^ -d`, ties resolved toward the larger value. -/
def toFixedRat (x : ℚ) (d : ℕ) : ℚ :=
  (⌊x * 10 ^ d + 1 / 2⌋ : ℚ) / 10 ^ d

/-- Embedding of `getFlooredFixed` (Amount.tsx lines 159-163):
`factor = 100 ** decimalPlaces; Math.floor(value * factor) / factor`, then
`Number(roundedValue.toFixed(decimalPlaces))`. -/
def getFlooredFixed (value : ℚ) (decimalPlaces : ℕ) : ℚ :=
  toFixedRat ((⌊value * 100 ^ decimalPlaces⌋ : ℚ) / 100 ^ decimalPlaces) decimalPlaces

/-- ECMA-402 `halfExpand` rounding of `x * 10 ^ d` to an integer: nearest,
ties away from zero. -/
def roundHalfExpand (x : ℚ) (d : ℕ) : ℤ :=
  if 0 ≤ x then ⌊x * 10 ^ d + 1 / 2⌋ else -⌊(-x) * 10 ^ d + 1 / 2⌋

/-- The character for a decimal digit. -/
def digitChar (n : ℕ) : Char := Char.ofNat (48 + n % 10)

/-- Fuelled most-significant-first decimal digit expansion. -/
def natDigitsAux : ℕ → ℕ → List Char → List Char
  | 0, _, acc => acc
  | fuel + 1, n, acc =>
    if n < 10 then digitChar n :: acc
    else natDigitsAux fuel (n / 10) (digitChar (n % 10) :: acc)

/-- Decimal digits of a natural number, most significant first; `natDigits 0 = ['0']`. -/
def natDigits (n : ℕ) : List Char := natDigitsAux (n + 1) n []

/-- Left-pad a digit list with `'0'` to length `k`. -/
def padZeros (k : ℕ) (ds : List Char) : List Char :=
  List.replicate (k - ds.length) '0' ++ ds

/-- Remove trailing `'0'` characters, but never shrink below `minLen`
(ECMA-402: fraction digits beyond `minimumFractionDigits` that are zero are
not displayed). -/
def stripTrailingZeros (minLen : ℕ) (ds : List Char) : List Char :=
  (ds.reverse.drop
      (min ((ds.reverse.takeWhile (fun c => c == '0')).length) (ds.length - minLen))).reverse

/-- Fuelled chunking of a (reversed, least-significant-first) digit list into
groups of size `k`. -/
def chunksAux (k : ℕ) : ℕ → List Char → List (List Char)
  | 0, _ => []
  | _ + 1, [] => []
  | fuel + 1, x :: xs => (x :: xs).take k :: chunksAux k fuel ((x :: xs).drop k)

/-- Join digit groups (most significant group first) with `','`. -/
def joinSep : List (List Char) → List Char
  | [] => []
  | [g] => g
  | g :: g' :: gs => g ++ ',' :: joinSep (g' :: gs)

/-- Locale digit grouping of an integer part: `en-IN` (`indian = true`) groups
the last three digits, then groups of two; `en-US` groups by three. -/
def groupDigits (indian : Bool) (n : ℕ) : List Char :=
  let rev := (natDigits n).reverse
  let groupsRev :=
    if indian then rev.take 3 :: chunksAux 2 (rev.drop 3).length (rev.drop 3)
    else chunksAux 3 rev.length rev
  joinSep ((groupsRev.map List.reverse).reverse)

/-- The displayed fraction digits: the low `maxFrac` digits of the scaled
value, zero-padded to `maxFrac` characters, with trailing zeros beyond
`minFrac` removed. -/
def fracPart (minFrac maxFrac fp : ℕ) : List Char :=
  stripTrailingZeros minFrac (padZeros maxFrac (natDigits fp))

/-- Prepend a `'.'` to a nonempty fraction-digit list. -/
def dotTail (ds : List Char) : List Char :=
  if ds.isEmpty then [] else '.' :: ds

/-- Embedding of `addCommas` (Amount.tsx lines 165-170):
`amountValue.toLocaleString(locale, \x7b minimumFractionDigits: decimalPlaces \x7d)`
with locale `en-IN` when the currency is INR and `en-US` otherwise
(ECMA-402: `maximumFractionDigits` defaults to `max decimalPlaces 3`, rounding
mode half-expand). -/
def addCommas (amountValue : ℚ) (currency : String) (decimalPlaces : ℕ) : String :=
  String.mk ((if amountValue < 0 then ['-'] else []) ++
    groupDigits (currency = "INR")
      ((roundHalfExpand |amountValue| (max decimalPlaces 3)).toNat /
        10 ^ (max decimalPlaces 3)) ++
    dotTail (fracPart decimalPlaces (max decimalPlaces 3)
      ((roundHalfExpand |amountValue| (max decimalPlaces 3)).toNat %
        10 ^ (max decimalPlaces 3))))

/-- Least `k` such that `v * 10 ^ k` is an integer (searching up to the
denominator suffices for terminating decimals). -/
def decExp (v : ℚ) : ℕ :=
  (((List.range (v.den + 1)).find? (fun k => (v * 10 ^ k).den = 1)).getD 0)

/-- Model of `Number.prototype.toString` in its plain-decimal range: sign,
integer digits, and when the value is not an integer a `'.'` followed by the
fractional digits with no trailing zeros and no grouping. -/
def jsToString (v : ℚ) : String :=
  String.mk ((if v < 0 then ['-'] else []) ++
    natDigits ((v * 10 ^ decExp v).num.natAbs / 10 ^ decExp v) ++
    (if decExp v = 0 then []
     else '.' :: padZeros (decExp v) (natDigits ((v * 10 ^ decExp v).num.natAbs % 10 ^ decExp v))))

/-- An abbreviation rule: a threshold `value` and the `symbol` appended when
the rule applies. -/
structure AbbreviationRule where
  value : ℚ
  symbol : String
deriving DecidableEq

/-- Modelled from the spec: the per-currency abbreviation table
(`getCurrencyAbbreviations` from `amountTokens`, whose source file is not among
the provided sources). The spec describes, for each currency, an ordered
sequence of abbreviation rules with strictly decreasing thresholds
(billions > millions > thousands), the smallest threshold being 1000. -/
def getCurrencyAbbreviations (_currency : String) : List AbbreviationRule :=
  [⟨10 ^ 9, "B"⟩, ⟨10 ^ 6, "M"⟩, ⟨10 ^ 3, "K"⟩]

/-- Embedding of `getHumanizedAmount` (Amount.tsx lines 176-187):
`abbreviations.find((abbr) => amountValue >= abbr.value)`; on a match, divide,
apply `getFlooredFixed(_, 2)`, `addCommas` (default `decimalPlaces = 0`) and
append the symbol; otherwise `amountValue.toString()`. -/
def getHumanizedAmount (amountValue : ℚ) (currency : String) : String :=
  match (getCurrencyAbbreviations currency).find?
      (fun abbr => decide (abbr.value ≤ amountValue)) with
  | some abbreviation =>
      addCommas (getFlooredFixed (amountValue / abbreviation.value) 2) currency 0
        ++ abbreviation.symbol
  | none => jsToString amountValue

/-- Embedding of `formatAmountWithSuffix` (Amount.tsx lines 195-214). The
`suffix` is kept as an arbitrary string so the `default` branch of the
`switch` is faithfully represented. -/
def formatAmountWithSuffix (suffix : String) (value : ℚ) (currency : String) : String :=
  if suffix = "decimals" then addCommas (getFlooredFixed value 2) currency 2
  else if suffix = "humanize" then getHumanizedAmount value currency
  else if suffix = "none" then addCommas (getFlooredFixed value 0) currency 0
  else addCommas (getFlooredFixed value 0) currency 0

/-- Embedding of the development-mode validation at the head of `_Amount`
(Amount.tsx lines 235-249): under `__DEV__`, a non-number `value` raises a
Blade error, then a `'neutral'` intent raises a Blade error; outside
development mode both checks are skipped. -/
def amountDevChecks (dev : Bool) (valueIsNumber : Bool) (intent : Option String) :
    Except String Unit :=
  if dev then
    if valueIsNumber = false then
      Except.error "`value` prop must be of type `number` for Amount."
    else if intent = some "neutral" then
      Except.error "`neutral` intent is not supported."
    else Except.ok ()
  else Except.ok ()

/-- The number of characters after the (last) `'.'` of a rendered string,
`0` when the string has no `'.'`. -/
def fracDigitCount (s : String) : ℕ :=
  if '.' ∈ s.data then (s.data.reverse.takeWhile (fun c => c != '.')).length else 0

/-! ## Helper lemmas -/

theorem floor_intCast_add_half (m : ℤ) : ⌊(m : ℚ) + 1 / 2⌋ = m := by
  rw [Int.floor_int_add]
  norm_num

theorem toFixedRat_int_div_pow (m : ℤ) (d : ℕ) :
    toFixedRat ((m : ℚ) / 10 ^ d) d = (m : ℚ) / 10 ^ d := by
  have h10 : ((10 : ℚ) ^ d) ≠ 0 := by positivity
  unfold toFixedRat
  rw [div_mul_cancel₀ _ h10, floor_intCast_add_half]

theorem getFlooredFixed_int_div_pow (m : ℤ) (d : ℕ) :
    getFlooredFixed ((m : ℚ) / 10 ^ d) d = (m : ℚ) / 10 ^ d := by
  have h10 : ((10 : ℚ) ^ d) ≠ 0 := by positivity
  unfold getFlooredFixed
  have key : (m : ℚ) / 10 ^ d * 100 ^ d = ((m * 10 ^ d : ℤ) : ℚ) := by
    push_cast
    rw [show (100 : ℚ) = 10 * 10 by norm_num, mul_pow]
    field_simp
    ring
  rw [key, Int.floor_intCast]
  have key2 : ((m * 10 ^ d : ℤ) : ℚ) / 100 ^ d = (m : ℚ) / 10 ^ d := by
    push_cast
    rw [show (100 : ℚ) = 10 * 10 by norm_num, mul_pow]
    rw [div_eq_div_iff (by positivity) h10]
    ring
  rw [key2, toFixedRat_int_div_pow]

theorem addCommas_eval (v : ℚ) (c : String) (d n : ℕ) (hv : 0 ≤ v)
    (h : v * 10 ^ (max d 3) = (n : ℚ)) :
    addCommas v c d = String.mk
      (groupDigits (decide (c = "INR")) (n / 10 ^ (max d 3)) ++
        dotTail (fracPart d (max d 3) (n % 10 ^ (max d 3)))) := by
  have hr : (roundHalfExpand |v| (max d 3)).toNat = n := by
    unfold roundHalfExpand
    rw [if_pos (abs_nonneg v), abs_of_nonneg hv, h]
    rw [show ((n : ℚ) + 1 / 2 : ℚ) = ((n : ℤ) : ℚ) + 1 / 2 by push_cast ; ring]
    rw [floor_intCast_add_half, Int.toNat_ofNat]
  unfold addCommas
  rw [hr, if_neg (not_lt.mpr hv), List.nil_append]

theorem digitChar_zero : digitChar 0 = '0' := rfl

theorem digitChar_ne_dot (k : ℕ) : digitChar k ≠ '.' := by
  unfold digitChar
  have h : k % 10 < 10 := Nat.mod_lt _ (by norm_num)
  set r := k % 10 with hr
  interval_cases r <;> decide

theorem digitChar_ne_comma (k : ℕ) : digitChar k ≠ ',' := by
  unfold digitChar
  have h : k % 10 < 10 := Nat.mod_lt _ (by norm_num)
  set r := k % 10 with hr
  interval_cases r <;> decide

theorem natDigits_small {n : ℕ} (h : n < 10) : natDigits n = [digitChar n] := by
  simp [natDigits, natDigitsAux, h]

theorem natDigitsAux_eq (n : ℕ) : ∀ (fuel : ℕ) (acc : List Char), n < fuel →
    natDigitsAux fuel n acc = natDigits n ++ acc := by
  induction n using Nat.strong_induction_on with
  | _ n ih =>
    intro fuel acc hf
    cases fuel with
    | zero => omega
    | succ f =>
      by_cases h10 : n < 10
      · simp [natDigitsAux, natDigits, h10]
      · have hlt : n / 10 < n := Nat.div_lt_self (by omega) (by norm_num)
        have hstep : natDigitsAux (f + 1) n acc
            = natDigitsAux f (n / 10) (digitChar (n % 10) :: acc) := by
          simp [natDigitsAux, h10]
        have hstep2 : natDigits n = natDigitsAux n (n / 10) [digitChar (n % 10)] := by
          simp [natDigits, natDigitsAux, h10]
        rw [hstep, ih _ hlt f _ (by omega), hstep2, ih _ hlt n _ (by omega)]
        simp

theorem natDigits_step {n : ℕ} (h : 10 ≤ n) :
    natDigits n = natDigits (n / 10) ++ [digitChar (n % 10)] := by
  unfold natDigits
  rw [show natDigitsAux (n + 1) n [] = natDigitsAux n (n / 10) [digitChar (n % 10)] from by
    simp [natDigitsAux, Nat.not_lt.mpr h]]
  exact natDigitsAux_eq _ _ _ (Nat.div_lt_self (by omega) (by norm_num))

theorem natDigits_chars (n : ℕ) : ∀ x ∈ natDigits n, ∃ k, k < 10 ∧ x = digitChar k := by
  induction n using Nat.strong_induction_on with
  | _ n ih =>
    intro x hx
    by_cases h10 : n < 10
    · rw [natDigits_small h10] at hx
      rw [List.mem_singleton] at hx
      exact ⟨n, h10, hx⟩
    · rw [natDigits_step (Nat.le_of_not_lt h10)] at hx
      rcases List.mem_append.mp hx with h1 | h2
      · exact ih _ (Nat.div_lt_self (by omega) (by norm_num)) x h1
      · rw [List.mem_singleton] at h2
        exact ⟨n % 10, Nat.mod_lt _ (by norm_num), h2⟩

theorem natDigits_length_le : ∀ (k n : ℕ), n < 10 ^ (k + 1) → (natDigits n).length ≤ k + 1
  | 0, n, h => by
    have hn : n < 10 := by simpa using h
    simp [natDigits_small hn]
  | k + 1, n, h => by
    by_cases h10 : n < 10
    · simp [natDigits_small h10]
    · rw [natDigits_step (Nat.le_of_not_lt h10), List.length_append]
      have hdiv : n / 10 < 10 ^ (k + 1) := by
        rw [Nat.div_lt_iff_lt_mul (by norm_num)]
        calc n < 10 ^ (k + 2) := h
        _ = 10 ^ (k + 1) * 10 := by ring
      have hrec := natDigits_length_le k (n / 10) hdiv
      simp only [List.length_singleton]
      omega

theorem natDigits_mul10 (n : ℕ) (h : 0 < n) :
    natDigits (n * 10) = natDigits n ++ ['0'] := by
  have h10 : 10 ≤ n * 10 := by omega
  rw [natDigits_step h10, Nat.mul_div_cancel _ (by norm_num), Nat.mul_mod_left,
    digitChar_zero]

theorem natDigits_mul_pow (q : ℕ) (hq : 0 < q) :
    ∀ e : ℕ, natDigits (q * 10 ^ e) = natDigits q ++ List.replicate e '0' := by
  intro e
  induction e with
  | zero => simp
  | succ e ih =>
    rw [show q * 10 ^ (e + 1) = q * 10 ^ e * 10 by ring,
      natDigits_mul10 _ (by positivity), ih, List.append_assoc,
      ← List.replicate_succ']

theorem takeWhile_all (p : Char → Bool) (l : List Char) (h : ∀ x ∈ l, p x = true) :
    l.takeWhile p = l := by
  induction l with
  | nil => rfl
  | cons a as ih =>
    rw [List.takeWhile_cons_of_pos (h a (List.mem_cons_self a as))]
    rw [ih (fun x hx => h x (List.mem_cons_of_mem a hx))]

theorem takeWhile_all_append_cons (p : Char → Bool) (l₁ : List Char) (y : Char)
    (l₂ : List Char) (h1 : ∀ x ∈ l₁, p x = true) (h2 : p y = false) :
    (l₁ ++ y :: l₂).takeWhile p = l₁ := by
  induction l₁ with
  | nil =>
    simp only [List.nil_append]
    rw [List.takeWhile_cons_of_neg (by rw [h2] ; exact Bool.false_ne_true)]
  | cons a as ih =>
    rw [List.cons_append,
      List.takeWhile_cons_of_pos (h1 a (List.mem_cons_self a as)),
      ih (fun x hx => h1 x (List.mem_cons_of_mem a hx))]

theorem stripTrailingZeros_replicate (d F : ℕ) (hdF : d ≤ F) :
    stripTrailingZeros d (List.replicate F '0') = List.replicate d '0' := by
  unfold stripTrailingZeros
  rw [List.reverse_replicate,
    takeWhile_all _ _ (fun x hx => by rw [List.eq_of_mem_replicate hx] ; rfl),
    List.length_replicate,
    show min F (F - d) = F - d by omega,
    show List.replicate F '0' = List.replicate (F - d) '0' ++ List.replicate d '0' from by
      rw [List.append_replicate_replicate]
      congr 1
      omega,
    List.drop_left' (List.length_replicate _ _), List.reverse_replicate]

theorem stripTrailingZeros_padZeros (d e : ℕ) (L : List Char) (hL : L.length ≤ d) :
    stripTrailingZeros d (padZeros (d + e) (L ++ List.replicate e '0')) =
      List.replicate (d - L.length) '0' ++ L := by
  unfold padZeros stripTrailingZeros
  rw [show (d + e) - (L ++ List.replicate e '0').length = d - L.length from by
    simp ; omega]
  rw [show List.replicate (d - L.length) '0' ++ (L ++ List.replicate e '0') =
      (List.replicate (d - L.length) '0' ++ L) ++ List.replicate e '0' from by
    rw [List.append_assoc]]
  rw [List.reverse_append, List.reverse_replicate]
  rw [List.takeWhile_append_of_pos
    (fun x hx => by rw [List.eq_of_mem_replicate hx] ; rfl)]
  rw [List.length_append, List.length_replicate]
  rw [show ((List.replicate (d - L.length) '0' ++ L) ++ List.replicate e '0').length - d
      = e from by simp ; omega]
  have hbound : ((List.replicate (d - L.length) '0' ++ L).reverse.takeWhile
      (fun c => c == '0')).length ≤ d := by
    calc ((List.replicate (d - L.length) '0' ++ L).reverse.takeWhile
        (fun c => c == '0')).length
        ≤ (List.replicate (d - L.length) '0' ++ L).reverse.length :=
          (List.takeWhile_sublist _).length_le
      _ = d - L.length + L.length := by
          rw [List.length_reverse, List.length_append, List.length_replicate]
      _ ≤ d := by omega
  rw [show min (e + ((List.replicate (d - L.length) '0' ++ L).reverse.takeWhile
      (fun c => c == '0')).length) e = e from by omega]
  rw [List.drop_left' (List.length_replicate _ _), List.reverse_reverse]

theorem mem_chunksAux (k : ℕ) :
    ∀ (fuel : ℕ) (l : List Char) (g : List Char), g ∈ chunksAux k fuel l →
      ∀ x ∈ g, x ∈ l := by
  intro fuel
  induction fuel with
  | zero =>
    intro l g hg
    simp [chunksAux] at hg
  | succ f ih =>
    intro l g hg x hx
    cases l with
    | nil => simp [chunksAux] at hg
    | cons a as =>
      rw [chunksAux] at hg
      rcases List.mem_cons.mp hg with rfl | hg'
      · exact List.mem_of_mem_take hx
      · exact List.mem_of_mem_drop (ih _ _ hg' x hx)

theorem mem_joinSep : ∀ (gs : List (List Char)) (x : Char), x ∈ joinSep gs →
    x = ',' ∨ ∃ g ∈ gs, x ∈ g
  | [], x, h => absurd h (List.not_mem_nil x)
  | [g], x, h => Or.inr ⟨g, List.mem_cons_self g [], h⟩
  | g :: g' :: gs, x, h => by
    rw [joinSep] at h
    rcases List.mem_append.mp h with h1 | h2
    · exact Or.inr ⟨g, List.mem_cons_self _ _, h1⟩
    · rcases List.mem_cons.mp h2 with rfl | h3
      · exact Or.inl rfl
      · rcases mem_joinSep (g' :: gs) x h3 with hc | ⟨g₀, hg₀, hx⟩
        · exact Or.inl hc
        · exact Or.inr ⟨g₀, List.mem_cons_of_mem _ hg₀, hx⟩

theorem mem_groupDigits (b : Bool) (n : ℕ) :
    ∀ x ∈ groupDigits b n, x = ',' ∨ ∃ k, k < 10 ∧ x = digitChar k := by
  intro x hx
  have hmem : x = ',' ∨ x ∈ natDigits n := by
    unfold groupDigits at hx
    rcases mem_joinSep _ _ hx with hc | ⟨g, hg, hxg⟩
    · exact Or.inl hc
    · refine Or.inr ?_
      rw [List.mem_reverse] at hg
      rcases List.mem_map.mp hg with ⟨g₀, hg₀, rfl⟩
      rw [List.mem_reverse] at hxg
      have hx0 : x ∈ (natDigits n).reverse := by
        cases b with
        | true =>
          rw [if_pos rfl] at hg₀
          rcases List.mem_cons.mp hg₀ with rfl | hg₁
          · exact List.mem_of_mem_take hxg
          · exact List.mem_of_mem_drop (mem_chunksAux _ _ _ _ hg₁ x hxg)
        | false =>
          rw [if_neg (by decide)] at hg₀
          exact mem_chunksAux _ _ _ _ hg₀ x hxg
      rwa [List.mem_reverse] at hx0
  rcases hmem with hc | hd
  · exact Or.inl hc
  · exact Or.inr (natDigits_chars n x hd)

theorem fracPart_spec (d F q : ℕ) (hdF : d ≤ F) (hF : 0 < F) (hq : q < 10 ^ d) :
    (fracPart d F (q * 10 ^ (F - d))).length = d ∧
      ∀ x ∈ fracPart d F (q * 10 ^ (F - d)), ∃ k, k < 10 ∧ x = digitChar k := by
  rcases Nat.eq_zero_or_pos q with rfl | hq0
  · rw [show (0 : ℕ) * 10 ^ (F - d) = 0 by ring]
    have hpad : padZeros F (natDigits 0) = List.replicate F '0' := by
      unfold padZeros
      rw [show natDigits 0 = ['0'] from rfl]
      rw [show (['0'] : List Char) = List.replicate 1 '0' from rfl,
        List.append_replicate_replicate, List.length_replicate]
      congr 1
      omega
    unfold fracPart
    rw [hpad, stripTrailingZeros_replicate d F hdF]
    refine ⟨List.length_replicate _ _, ?_⟩
    intro x hx
    rw [List.eq_of_mem_replicate hx]
    exact ⟨0, by norm_num, digitChar_zero.symm⟩
  · have hd0 : 0 < d := by
      rcases Nat.eq_zero_or_pos d with rfl | h
      · simp at hq
        omega
      · exact h
    have hlen : (natDigits q).length ≤ d := by
      have := natDigits_length_le (d - 1) q (by
        rw [show d - 1 + 1 = d by omega]
        exact hq)
      omega
    unfold fracPart
    rw [natDigits_mul_pow q hq0 (F - d),
      show F = d + (F - d) by omega,
      show d + (F - d) - d = F - d by omega,
      stripTrailingZeros_padZeros d (F - d) (natDigits q) hlen]
    constructor
    · simp
      omega
    · intro x hx
      rcases List.mem_append.mp hx with h1 | h2
      · rw [List.eq_of_mem_replicate h1]
        exact ⟨0, by norm_num, digitChar_zero.symm⟩
      · exact natDigits_chars q x h2

theorem fracDigitCount_mk (sign intStr fs : List Char)
    (hsign : ∀ x ∈ sign, x ≠ '.')
    (hint : ∀ x ∈ intStr, x ≠ '.')
    (hfs : ∀ x ∈ fs, x ≠ '.') :
    fracDigitCount (String.mk (sign ++ intStr ++ dotTail fs)) = fs.length := by
  rcases fs with _ | ⟨a, as⟩
  · rw [show dotTail [] = [] from rfl]
    unfold fracDigitCount
    rw [if_neg]
    · rfl
    · intro hmem
      simp only [String.data, List.append_nil] at hmem
      rcases List.mem_append.mp hmem with h1 | h2
      · exact hsign '.' h1 rfl
      · exact hint '.' h2 rfl
  · rw [show dotTail (a :: as) = '.' :: a :: as from rfl]
    unfold fracDigitCount
    rw [if_pos (by
      simp only [String.data]
      exact List.mem_append.mpr (Or.inr (List.mem_cons_self _ _)))]
    simp only [String.data]
    rw [show sign ++ intStr ++ '.' :: a :: as =
        (sign ++ intStr) ++ '.' :: (a :: as) from by rw [List.append_assoc]]
    rw [List.reverse_append, List.reverse_cons]
    rw [show (a :: as).reverse ++ ['.'] ++ (sign ++ intStr).reverse =
        (a :: as).reverse ++ '.' :: (sign ++ intStr).reverse from by
      rw [List.append_assoc] ; rfl]
    rw [takeWhile_all_append_cons _ _ _ _
      (fun x hx => by
        rw [List.mem_reverse] at hx
        exact bne_iff_ne.mpr (hfs x hx))
      (by decide)]
    rw [List.length_reverse]

theorem jsToString_intCast (m : ℤ) :
    jsToString (m : ℚ) = String.mk ((if m < 0 then ['-'] else []) ++ natDigits m.natAbs) := by
  have hden : ((m : ℚ)).den = 1 := Rat.den_intCast m
  have hmul : (m : ℚ) * 10 ^ (0 : ℕ) = (m : ℚ) := by norm_num
  have hk : decExp (m : ℚ) = 0 := by
    unfold decExp
    rw [hden]
    rw [show List.range 2 = [0, 1] from rfl]
    rw [List.find?_cons_of_pos _ (by simp only [decide_eq_true_eq, hmul, hden])]
    rfl
  unfold jsToString
  rw [hk, hmul, Rat.num_intCast, if_pos rfl, List.append_nil]
  rw [show (10 : ℕ) ^ (0 : ℕ) = 1 from rfl, Nat.div_one]
  rcases lt_or_le m 0 with hm | hm
  · rw [if_pos hm, if_pos (by exact_mod_cast Int.cast_lt_zero.mpr hm : (m : ℚ) < 0)]
  · rw [if_neg (not_lt.mpr hm),
      if_neg (not_lt.mpr (by exact_mod_cast Int.cast_nonneg.mpr hm : (0 : ℚ) ≤ (m : ℚ)))]

theorem addCommas_repr (v : ℚ) (c : String) (d n : ℕ)
    (h : |v| * 10 ^ (max d 3) = (n : ℚ)) :
    addCommas v c d = String.mk ((if v < 0 then ['-'] else []) ++
      groupDigits (decide (c = "INR")) (n / 10 ^ (max d 3)) ++
      dotTail (fracPart d (max d 3) (n % 10 ^ (max d 3)))) := by
  have hr : (roundHalfExpand |v| (max d 3)).toNat = n := by
    unfold roundHalfExpand
    rw [if_pos (abs_nonneg v), h,
      show ((n : ℚ) + 1 / 2 : ℚ) = ((n : ℤ) : ℚ) + 1 / 2 by push_cast ; ring,
      floor_intCast_add_half, Int.toNat_ofNat]
  unfold addCommas
  rw [hr]

/-! ## Claim theorems -/

/-- Claim C6: `getFlooredFixed` is idempotent: for every value `v` and
non-negative integer `d`, `getFlooredFixed (getFlooredFixed v d) d`
equals `getFlooredFixed v d`. -/
theorem C6_flooredFixed_idempotent (v : ℚ) (d : ℕ) :
    getFlooredFixed (getFlooredFixed v d) d = getFlooredFixed v d := by
  have h : getFlooredFixed v d =
      ((⌊(⌊v * 100 ^ d⌋ : ℚ) / 100 ^ d * 10 ^ d + 1 / 2⌋ : ℤ) : ℚ) / 10 ^ d := rfl
  rw [h, getFlooredFixed_int_div_pow]

/-- Claim C1 (code bug evaluation): at `value = 0.567`, `decimalPlaces = 2`,
`getFlooredFixed` returns `0.57`, which strictly exceeds the input — the
function rounds up instead of truncating, because it scales by
`100 ** decimalPlaces` while `toFixed` then re-rounds at `decimalPlaces`. -/
theorem C1_roundsUp_codeBugEval :
    getFlooredFixed (567 / 1000) 2 = 57 / 100 ∧
      (567 / 1000 : ℚ) < getFlooredFixed (567 / 1000) 2 := by
  have h1 : ⌊(567 / 1000 : ℚ) * 100 ^ 2⌋ = (5670 : ℤ) := by
    rw [Int.floor_eq_iff]
    constructor <;> norm_num
  have h2 : ⌊((5670 : ℤ) : ℚ) / 100 ^ 2 * 10 ^ 2 + 1 / 2⌋ = (57 : ℤ) := by
    rw [Int.floor_eq_iff]
    constructor <;> norm_num
  have h3 : getFlooredFixed (567 / 1000) 2 = 57 / 100 := by
    unfold getFlooredFixed toFixedRat
    rw [h1, h2]
    norm_num
  exact ⟨h3, by rw [h3] ; norm_num⟩

/-- Claim C7: `formatAmountWithSuffix` at value `1234567`, currency `USD`,
policy `none` yields `"1,234,567"`: Western grouping, zero fraction digits. -/
theorem C7_formatNone_usd :
    formatAmountWithSuffix "none" 1234567 "USD" = "1,234,567" := by
  have h0 : getFlooredFixed 1234567 0 = 1234567 := by
    have h := getFlooredFixed_int_div_pow 1234567 0
    norm_num at h
    exact h
  unfold formatAmountWithSuffix
  rw [if_neg (show ¬("none" = "decimals") by decide),
    if_neg (show ¬("none" = "humanize") by decide), if_pos rfl, h0,
    addCommas_eval 1234567 "USD" 0 1234567000 (by norm_num) (by norm_num)]
  decide

/-- Claim C2 (code bug evaluation): at value `1234.567`, currency `INR`,
policy `decimals`, the code yields `"1,234.57"` — the fractional part is
rounded up, not floored, so the specified `"1,234.56"` is not produced. -/
theorem C2_decimals_codeBugEval :
    formatAmountWithSuffix "decimals" (1234567 / 1000) "INR" = "1,234.57" ∧
      formatAmountWithSuffix "decimals" (1234567 / 1000) "INR" ≠ "1,234.56" := by
  have h1 : ⌊(1234567 / 1000 : ℚ) * 100 ^ 2⌋ = (12345670 : ℤ) := by
    rw [Int.floor_eq_iff]
    constructor <;> norm_num
  have h2 : ⌊((12345670 : ℤ) : ℚ) / 100 ^ 2 * 10 ^ 2 + 1 / 2⌋ = (123457 : ℤ) := by
    rw [Int.floor_eq_iff]
    constructor <;> norm_num
  have h3 : getFlooredFixed (1234567 / 1000) 2 = 123457 / 100 := by
    unfold getFlooredFixed toFixedRat
    rw [h1, h2]
    norm_num
  have h4 : formatAmountWithSuffix "decimals" (1234567 / 1000) "INR" = "1,234.57" := by
    unfold formatAmountWithSuffix
    rw [if_pos rfl, h3,
      addCommas_eval (123457 / 100) "INR" 2 1234570 (by norm_num) (by norm_num)]
    decide
  exact ⟨h4, by rw [h4] ; decide⟩

/-- Claim C5: every suffix policy string outside the recognised set falls
back to the `none` formatting: `formatAmountWithSuffix s v c` equals
`formatAmountWithSuffix "none" v c` for unrecognised `s`. -/
theorem C5_unrecognizedPolicy_fallback (s : String) (v : ℚ) (c : String)
    (h1 : s ≠ "decimals") (h2 : s ≠ "humanize") (h3 : s ≠ "none") :
    formatAmountWithSuffix s v c = formatAmountWithSuffix "none" v c := by
  unfold formatAmountWithSuffix
  rw [if_neg h1, if_neg h2, if_neg h3, if_neg (show ¬("none" = "decimals") by decide),
    if_neg (show ¬("none" = "humanize") by decide), if_pos rfl]

/-- Witness for C5 at the unrecognised policy `"abc"`. -/
theorem C5_unrecognizedPolicy_fallback_witness :
    formatAmountWithSuffix "abc" 7 "USD" = formatAmountWithSuffix "none" 7 "USD" :=
  C5_unrecognizedPolicy_fallback "abc" 7 "USD" (by decide) (by decide) (by decide)

/-- Claim C8: whenever `getHumanizedAmount` abbreviates using a rule, that
rule's threshold is at most the input value, and the output is the divided,
floor-fixed, grouped value with the rule's symbol appended. -/
theorem C8_humanize_threshold_le (v : ℚ) (c : String) (r : AbbreviationRule)
    (h : (getCurrencyAbbreviations c).find? (fun abbr => decide (abbr.value ≤ v)) = some r) :
    r.value ≤ v ∧ getHumanizedAmount v c =
      addCommas (getFlooredFixed (v / r.value) 2) c 0 ++ r.symbol := by
  have hp := List.find?_some h
  simp only [decide_eq_true_eq] at hp
  refine ⟨hp, ?_⟩
  unfold getHumanizedAmount
  rw [h]

/-- Witness for C8 at value `2000`, currency INR, matching the thousands rule. -/
theorem C8_humanize_threshold_le_witness :
    ((10 : ℚ) ^ 3 ≤ 2000) ∧ getHumanizedAmount 2000 "INR" =
      addCommas (getFlooredFixed (2000 / 10 ^ 3) 2) "INR" 0 ++ "K" := by
  have hf : (getCurrencyAbbreviations "INR").find?
      (fun abbr => decide (abbr.value ≤ (2000 : ℚ))) = some ⟨10 ^ 3, "K"⟩ := by
    unfold getCurrencyAbbreviations
    rw [List.find?_cons_of_neg _ (by simp only [decide_eq_true_eq] ; norm_num),
      List.find?_cons_of_neg _ (by simp only [decide_eq_true_eq] ; norm_num),
      List.find?_cons_of_pos _ (by simp only [decide_eq_true_eq] ; norm_num)]
  exact C8_humanize_threshold_le 2000 "INR" ⟨10 ^ 3, "K"⟩ hf

/-- Claim C9: in development mode the `_Amount` precondition check rejects a
non-numeric `value` and the `'neutral'` intent with descriptive diagnostics;
with the development flag off, both checks are skipped and no error is
raised. -/
theorem C9_devChecks (vNum : Bool) (i : Option String) :
    (vNum = false →
      amountDevChecks true vNum i =
        Except.error "`value` prop must be of type `number` for Amount.") ∧
    (vNum = true → i = some "neutral" →
      amountDevChecks true vNum i =
        Except.error "`neutral` intent is not supported.") ∧
    amountDevChecks false vNum i = Except.ok () := by
  refine ⟨?_, ?_, rfl⟩
  · rintro rfl
    rfl
  · rintro rfl rfl
    rfl

/-- Witness for C9: a non-number value errors in dev mode and passes in
production mode. -/
theorem C9_devChecks_witness :
    amountDevChecks true false none =
        Except.error "`value` prop must be of type `number` for Amount." ∧
      amountDevChecks false false none = Except.ok () :=
  ⟨(C9_devChecks false none).1 rfl, (C9_devChecks false none).2.2⟩

/-- Claim C3 (counterexample): at value `1.5`, any currency, and
`decimalPlaces = 0`, `addCommas` yields `"1.5"` — one digit after the decimal
point rather than zero, because `toLocaleString` with only
`minimumFractionDigits` set still shows up to three fraction digits. -/
theorem C3_exactDigits_counterexample :
    addCommas (3 / 2) "USD" 0 = "1.5" ∧ fracDigitCount (addCommas (3 / 2) "USD" 0) ≠ 0 := by
  have h : addCommas (3 / 2) "USD" 0 = "1.5" := by
    rw [addCommas_eval (3 / 2) "USD" 0 1500 (by norm_num) (by norm_num)]
    decide
  exact ⟨h, by rw [h] ; decide⟩

/-- Claim C3 (amended): whenever the value is an integer multiple of
`10 ^ -decimalPlaces` — in particular whenever it was already truncated to
`decimalPlaces` fractional digits — the `addCommas` output contains exactly
`decimalPlaces` digits after the decimal point, zero-padded when the value
has fewer fractional digits. -/
theorem C3_amended_exactFracDigits (v : ℚ) (c : String) (d : ℕ)
    (h : ∃ m : ℤ, v = (m : ℚ) / 10 ^ d) :
    fracDigitCount (addCommas v c d) = d := by
  obtain ⟨m, rfl⟩ := h
  have hdF : d ≤ max d 3 := le_max_left d 3
  have hF : 0 < max d 3 := lt_of_lt_of_le (by norm_num) (le_max_right d 3)
  have habs : |(m : ℚ) / 10 ^ d| * 10 ^ (max d 3)
      = ((m.natAbs * 10 ^ (max d 3 - d) : ℕ) : ℚ) := by
    have h1 : |(m : ℚ)| = ((m.natAbs : ℕ) : ℚ) := by
      rw [Int.cast_natAbs, Int.cast_abs]
    rw [abs_div, h1, abs_pow, abs_of_nonneg (by norm_num : (0 : ℚ) ≤ 10)]
    rw [show (10 : ℚ) ^ (max d 3) = 10 ^ d * 10 ^ (max d 3 - d) from by
      rw [← pow_add] ; congr 1 ; omega]
    push_cast
    field_simp
    ring
  rw [addCommas_repr _ c d _ habs]
  have hmod : (m.natAbs * 10 ^ (max d 3 - d)) % 10 ^ (max d 3)
      = (m.natAbs % 10 ^ d) * 10 ^ (max d 3 - d) := by
    conv_lhs => rw [show (10 : ℕ) ^ (max d 3) = 10 ^ d * 10 ^ (max d 3 - d) from by
      rw [← pow_add] ; congr 1 ; omega]
    exact Nat.mul_mod_mul_right _ _ _
  rw [hmod]
  obtain ⟨hlen, hchars⟩ := fracPart_spec d (max d 3) (m.natAbs % 10 ^ d) hdF hF
    (Nat.mod_lt _ (by positivity))
  rw [fracDigitCount_mk _ _ _
    (by
      intro x hx
      split at hx
      · rw [List.mem_singleton] at hx
        subst hx
        decide
      · exact absurd hx (List.not_mem_nil x))
    (by
      intro x hx
      rcases mem_groupDigits _ _ x hx with rfl | ⟨k, _, rfl⟩
      · decide
      · exact digitChar_ne_dot k)
    (by
      intro x hx
      rcases hchars x hx with ⟨k, _, rfl⟩
      exact digitChar_ne_dot k)]
  exact hlen

/-- Witness for the amended C3 at value `5`, `decimalPlaces = 2`:
the output has exactly two fraction digits. -/
theorem C3_amended_exactFracDigits_witness :
    fracDigitCount (addCommas 5 "USD" 2) = 2 :=
  C3_amended_exactFracDigits 5 "USD" 2 ⟨500, by norm_num⟩

/-- Claim C4: `getHumanizedAmount` selects the first abbreviation rule in
descending threshold order whose threshold is at most the value (the test
being `≥`, so equality matches); on a match it returns the value divided by
the threshold, floor-fixed to 2 places, grouped with `addCommas`, with the
rule's symbol appended — and the matched rule has the greatest applicable
threshold; with no applicable rule it returns the plain string form, e.g.
`getHumanizedAmount 500 "INR" = "500"`. -/
theorem C4_humanize_contract (v : ℚ) (c : String) :
    ((∀ r ∈ getCurrencyAbbreviations c, v < r.value) →
      getHumanizedAmount v c = jsToString v) ∧
    (∀ r ∈ getCurrencyAbbreviations c, r.value ≤ v →
      ∃ r₀ ∈ getCurrencyAbbreviations c, r₀.value ≤ v ∧
        (∀ r' ∈ getCurrencyAbbreviations c, r'.value ≤ v → r'.value ≤ r₀.value) ∧
        getHumanizedAmount v c =
          addCommas (getFlooredFixed (v / r₀.value) 2) c 0 ++ r₀.symbol) ∧
    getHumanizedAmount 500 "INR" = "500" := by
  refine ⟨?_, ?_, ?_⟩
  · intro hall
    have hfind : (getCurrencyAbbreviations c).find?
        (fun abbr => decide (abbr.value ≤ v)) = none := by
      rw [List.find?_eq_none]
      intro r hr
      simp only [decide_eq_true_eq]
      exact not_le.mpr (hall r hr)
    unfold getHumanizedAmount
    rw [hfind]
  · intro r hr hrle
    by_cases h9 : (10 : ℚ) ^ 9 ≤ v
    · refine ⟨⟨10 ^ 9, "B"⟩, by simp [getCurrencyAbbreviations], h9, ?_, ?_⟩
      · intro r' hr' _
        simp only [getCurrencyAbbreviations, List.mem_cons, List.mem_singleton,
          List.not_mem_nil, or_false] at hr'
        rcases hr' with rfl | rfl | rfl <;> norm_num
      · unfold getHumanizedAmount getCurrencyAbbreviations
        rw [List.find?_cons_of_pos _ (by simp only [decide_eq_true_eq] ; exact h9)]
    · by_cases h6 : (10 : ℚ) ^ 6 ≤ v
      · refine ⟨⟨10 ^ 6, "M"⟩, by simp [getCurrencyAbbreviations], h6, ?_, ?_⟩
        · intro r' hr' hr'le
          simp only [getCurrencyAbbreviations, List.mem_cons, List.mem_singleton,
            List.not_mem_nil, or_false] at hr'
          rcases hr' with rfl | rfl | rfl
          · exact absurd hr'le h9
          · norm_num
          · norm_num
        · unfold getHumanizedAmount getCurrencyAbbreviations
          rw [List.find?_cons_of_neg _ (by simp only [decide_eq_true_eq] ; exact h9),
            List.find?_cons_of_pos _ (by simp only [decide_eq_true_eq] ; exact h6)]
      · by_cases h3 : (10 : ℚ) ^ 3 ≤ v
        · refine ⟨⟨10 ^ 3, "K"⟩, by simp [getCurrencyAbbreviations], h3, ?_, ?_⟩
          · intro r' hr' hr'le
            simp only [getCurrencyAbbreviations, List.mem_cons, List.mem_singleton,
              List.not_mem_nil, or_false] at hr'
            rcases hr' with rfl | rfl | rfl
            · exact absurd hr'le h9
            · exact absurd hr'le h6
            · norm_num
          · unfold getHumanizedAmount getCurrencyAbbreviations
            rw [List.find?_cons_of_neg _ (by simp only [decide_eq_true_eq] ; exact h9),
              List.find?_cons_of_neg _ (by simp only [decide_eq_true_eq] ; exact h6),
              List.find?_cons_of_pos _ (by simp only [decide_eq_true_eq] ; exact h3)]
        · exfalso
          simp only [getCurrencyAbbreviations, List.mem_cons, List.mem_singleton,
            List.not_mem_nil, or_false] at hr
          rcases hr with rfl | rfl | rfl
          exacts [h9 hrle, h6 hrle, h3 hrle]
  · have hfind : (getCurrencyAbbreviations "INR").find?
        (fun abbr => decide (abbr.value ≤ (500 : ℚ))) = none := by
      rw [List.find?_eq_none]
      intro r hr
      simp only [getCurrencyAbbreviations, List.mem_cons, List.mem_singleton,
        List.not_mem_nil, or_false] at hr
      rcases hr with rfl | rfl | rfl <;> (simp only [decide_eq_true_eq] ; norm_num)
    have hstep : getHumanizedAmount 500 "INR" = jsToString 500 := by
      unfold getHumanizedAmount
      rw [hfind]
    rw [hstep]
    have hc : ((500 : ℤ) : ℚ) = (500 : ℚ) := by norm_num
    have h := jsToString_intCast 500
    rw [hc] at h
    rw [h]
    decide

/-- Witness for C4 at value `1/2`, below every threshold. -/
theorem C4_humanize_contract_witness :
    getHumanizedAmount (1 / 2) "INR" = jsToString (1 / 2) := by
  refine (C4_humanize_contract (1 / 2) "INR").1 ?_
  intro r hr
  simp only [getCurrencyAbbreviations, List.mem_cons, List.mem_singleton,
    List.not_mem_nil, or_false] at hr
  rcases hr with rfl | rfl | rfl <;> norm_num

/-- Claim C10: for a negative value and a currency whose abbreviation
thresholds are all positive, `getHumanizedAmount` returns the plain
`toString` rendering of the value, with no abbreviation and no grouping. -/
theorem C10_negative_noAbbreviation (v : ℚ) (c : String) (hv : v < 0)
    (hpos : ∀ r ∈ getCurrencyAbbreviations c, 0 < r.value) :
    getHumanizedAmount v c = jsToString v := by
  have hfind : (getCurrencyAbbreviations c).find?
      (fun abbr => decide (abbr.value ≤ v)) = none := by
    rw [List.find?_eq_none]
    intro r hr
    simp only [decide_eq_true_eq]
    exact not_le.mpr (hv.trans (hpos r hr))
  unfold getHumanizedAmount
  rw [hfind]

/-- Witness for C10 at value `-500`, currency INR: the plain rendering
`"-500"`. -/
theorem C10_negative_noAbbreviation_witness :
    getHumanizedAmount (-500) "INR" = jsToString (-500) ∧ jsToString (-500) = "-500" := by
  constructor
  · refine C10_negative_noAbbreviation (-500) "INR" (by norm_num) ?_
    intro r hr
    simp only [getCurrencyAbbreviations, List.mem_cons, List.mem_singleton,
      List.not_mem_nil, or_false] at hr
    rcases hr with rfl | rfl | rfl <;> norm_num
  · have hc : ((-500 : ℤ) : ℚ) = (-500 : ℚ) := by norm_num
    have h := jsToString_intCast (-500)
    rw [hc] at h
    rw [h]
    decide

end Blade
